import Mathlib

/-!
Shallow embedding of the line-oriented dictionary-entry parser in
`gen_oxford_list.py` (functions `parse_subentry` and `parse_word_entry`).

Python strings are modelled as `List Char`.  Each Python string operation
used by the source (`split`, `join`, `strip`, `replace`, `startswith`,
`endswith`, and the fixed regular expressions) is embedded as an executable
function on `List Char`, faithful to CPython semantics:

* `str.replace(old, '')` removes every left-to-right non-overlapping
  occurrence of `old` (all occurrences, not only the first);
* `str.split(' ')` splits at every single space, keeping empty segments;
* `re.split(r'(A1|A2|B1|B2|C1|C2),', s)` splits at each leftmost occurrence
  of a level code immediately followed by a comma, keeping the captured
  level code as its own list element;
* `level_pattern.search` returns the leftmost occurrence of one of the six
  level codes (at a given position at most one of the six can match);
* `part_of_speech_pattern.match(c)` on a stripped candidate `c` succeeds
  exactly when `c` equals one of the fixed part-of-speech strings (the
  pattern is anchored with `^( ... )$`);
* `start_with_definition_pattern.match(s)` (pattern `^\((.*?)\)`) succeeds
  exactly when `s` starts with an opening parenthesis and a closing
  parenthesis occurs later with no newline in between (`.` does not match
  a newline).

The `logging.debug` calls of the source that report parse anomalies are
modelled as explicit diagnostic values (`LEVEL NOT FOUND` becomes
`Diag.MissingLevel`, `PART OF SPEECH NOT MATCHED` becomes
`Diag.UnrecognizedPartOfSpeech`); the source has no logging call for an
empty subentry list or a missing word boundary, so no embedded function
ever emits `Diag.EmptySubentryList` or `Diag.NoWordBoundaryFound`.
A Python exception escaping `parse_subentry` is modelled as `Except.error`
carrying the diagnostics logged before the exception was raised.
-/

/-- Convert a string literal to the `List Char` representation. -/
def strL (s : String) : List Char :=
  s.toList

/-- Python `str.isspace` characters relevant to `str.strip()`. -/
def pyIsSpace (c : Char) : Bool :=
  c == ' ' || c == '\t' || c == '\n' || c == '\r' || c == '\x0b' || c == '\x0c'

/-- Left part of Python `str.strip()`: drop leading whitespace. -/
def stripLeft (s : List Char) : List Char :=
  s.dropWhile pyIsSpace

/-- Right part of Python `str.strip()`: drop trailing whitespace. -/
def stripRight (s : List Char) : List Char :=
  (s.reverse.dropWhile pyIsSpace).reverse

/-- Python `str.strip()`: drop leading and trailing whitespace. -/
def pyStrip (s : List Char) : List Char :=
  stripLeft (stripRight s)

/-- Prepend a character to the first segment of a split result
(helper for the splitting scanners). -/
def consHead (a : Char) : List (List Char) → List (List Char)
  | [] => [[a]]
  | x :: xs => (a :: x) :: xs

/-- Python `str.split(sep)` generalized to a separator predicate:
split at every separator character, keeping empty segments.
Also embeds `re.split(r',|\/', s)`. -/
def splitOnP (f : Char → Bool) : List Char → List (List Char)
  | [] => [[]]
  | c :: rest => if f c then [] :: splitOnP f rest else consHead c (splitOnP f rest)

/-- Python `' '.join(parts)`. -/
def joinSpace : List (List Char) → List Char
  | [] => []
  | [x] => x
  | x :: y :: xs => x ++ ' ' :: joinSpace (y :: xs)

/-- Fuel-driven scanner for Python `str.replace(old, '')` with a non-empty
pattern `p`: at each position, if `p` is a prefix, consume it (removing it),
otherwise keep one character.  The fuel only needs to be at least the length
of the scanned list. -/
def replaceAllGo (p : List Char) : Nat → List Char → List Char
  | _, [] => []
  | 0, c :: rest => c :: rest
  | n + 1, c :: rest =>
    if p.isPrefixOf (c :: rest) then replaceAllGo p n ((c :: rest).drop p.length)
    else c :: replaceAllGo p n rest

/-- Python `s.replace(p, '')`: remove every left-to-right non-overlapping
occurrence of `p` from `s` (`s.replace('', '')` returns `s` unchanged). -/
def replaceAll (s p : List Char) : List Char :=
  if p = [] then s else replaceAllGo p s.length s

/-- Fuel-driven counter of the left-to-right non-overlapping occurrences
of a non-empty pattern `p`, matching the scan of `replaceAllGo`. -/
def countOccGo (p : List Char) : Nat → List Char → Nat
  | _, [] => 0
  | 0, _ :: _ => 0
  | n + 1, c :: rest =>
    if p.isPrefixOf (c :: rest) then 1 + countOccGo p n ((c :: rest).drop p.length)
    else countOccGo p n rest

/-- Number of left-to-right non-overlapping occurrences of `p` in `s`. -/
def countOcc (s p : List Char) : Nat :=
  if p = [] then 0 else countOccGo p s.length s

/-- Modelled from the spec: remove only the first occurrence of `p` from `s`
(the spec's words `first match only`), for comparison with the source's
`str.replace`, which removes every occurrence. -/
def removeFirstOcc : List Char → List Char → List Char
  | [], _ => []
  | c :: rest, p =>
    if p.isPrefixOf (c :: rest) then (c :: rest).drop p.length
    else c :: removeFirstOcc rest p

/-- Whether `p` occurs as a contiguous substring of `s`. -/
def containsSub (p : List Char) : List Char → Bool
  | [] => p.isPrefixOf []
  | c :: t => p.isPrefixOf (c :: t) || containsSub p t

/-- The fixed part-of-speech vocabulary `PART_OF_SPEECH_VALUES` of the
source (regular-expression escapes removed). -/
def PART_OF_SPEECH_VALUES : List (List Char) :=
  [strL "n.", strL "noun.", strL "v.", strL "adj.", strL "adv.", strL "prep.",
   strL "pron.", strL "conj.", strL "interj.", strL "det.", strL "auxiliary",
   strL "auxiliary v.", strL "aux.", strL "exclam.", strL "modal", strL "modal v.",
   strL "indefinite article", strL "definite article", strL "number",
   strL "infinitive marker"]

/-- The fixed level-code vocabulary `LEVEL_VALUES` of the source. -/
def LEVEL_VALUES : List (List Char) :=
  [strL "A1", strL "A2", strL "B1", strL "B2", strL "C1", strL "C2"]

/-- Whether some level code occurs as a substring of `s`. -/
def anyLevelIn (s : List Char) : Bool :=
  LEVEL_VALUES.any (fun l => containsSub l s)

/-- Python `candidate.endswith('A1') or ... or candidate.endswith('C2')`. -/
def endsWithLevel (s : List Char) : Bool :=
  LEVEL_VALUES.any (fun l => l.isSuffixOf s)

/-- Number of positions of `s` at which a level code starts (level codes are
two distinct characters, so occurrences never overlap). -/
def countLevelOcc : List Char → Nat
  | [] => 0
  | c :: rest =>
    (if LEVEL_VALUES.any (fun l => l.isPrefixOf (c :: rest)) then 1 else 0) + countLevelOcc rest

/-- Helper for `^\((.*?)\)`: some `)` occurs with no `\n` before it. -/
def hasCloseBeforeNewline : List Char → Bool
  | [] => false
  | c :: rest => if c = ')' then true else if c = '\n' then false else hasCloseBeforeNewline rest

/-- Python `start_with_definition_pattern.match(s)` (pattern `^\((.*?)\)`). -/
def startsWithDefinition : List Char → Bool
  | '(' :: rest => hasCloseBeforeNewline rest
  | _ => false

/-- Python `start_with_part_of_speech_pattern.match(s)`: `s` starts with one
of the fixed part-of-speech strings. -/
def startsWithPartOfSpeech (s : List Char) : Bool :=
  PART_OF_SPEECH_VALUES.any (fun p => p.isPrefixOf s)

/-- The token-scanning loop of `parse_word_entry` after the unconditionally
included first token: stop at the first token at which the remaining line
starts with a definition or a part-of-speech marker, otherwise accumulate. -/
def scanTail : List (List Char) → List (List Char)
  | [] => []
  | p :: rest =>
    if startsWithDefinition (joinSpace (p :: rest)) then []
    else if startsWithPartOfSpeech (joinSpace (p :: rest)) then []
    else p :: scanTail rest

/-- The `word_parts` list of `parse_word_entry`: the first `' '`-token of the
line unconditionally, then the tokens accepted by the scanning loop. -/
def wordPartsOf (line : List Char) : List (List Char) :=
  match splitOnP (fun c => c == ' ') line with
  | [] => []
  | p :: rest => p :: scanTail rest

/-- The `word` variable of `parse_word_entry` (the WordForms segment). -/
def wordOf (line : List Char) : List Char :=
  joinSpace (wordPartsOf line)

/-- The Remainder: `line.replace(word, '').strip()` of the source — note
that `str.replace` removes every occurrence of `word`, not only the first. -/
def remainderOf (line : List Char) : List Char :=
  pyStrip (replaceAll line (wordOf line))

/-- Python `re.split(r'(A1|A2|B1|B2|C1|C2),', s)`: scan left to right; at a
level code immediately followed by a comma, close the current segment, keep
the level code as its own element, and continue after the comma. -/
def reSplitGo : List Char → List (List Char)
  | [] => [[]]
  | [a] => [[a]]
  | [a, b] => [[a, b]]
  | a :: b :: c :: rest =>
    if c = ',' ∧ [a, b] ∈ LEVEL_VALUES then [] :: [a, b] :: reSplitGo rest
    else consHead a (reSplitGo (b :: c :: rest))

/-- The accumulate-then-flush loop of `parse_word_entry` over the segments of
`re.split`: an exactly-level segment closes `buffer + ' ' + level` (without
resetting the buffer), a segment merely ending in a level code is emitted
as-is, and any other non-empty segment replaces the buffer. -/
def splitLoop (buf : List Char) (out : List (List Char)) : List (List Char) → List (List Char)
  | [] => out
  | c :: rest =>
    if pyStrip c = [] then splitLoop buf out rest
    else if pyStrip c ∈ LEVEL_VALUES then
      splitLoop buf (out ++ [buf ++ ' ' :: pyStrip c]) rest
    else if endsWithLevel (pyStrip c) then splitLoop buf (out ++ [pyStrip c]) rest
    else splitLoop (pyStrip c) out rest

/-- The Subentry Splitter of `parse_word_entry`: the `subentries` list built
from the Remainder. -/
def splitSubentries (rem : List Char) : List (List Char) :=
  splitLoop [] [] (reSplitGo rem)

/-- The diagnostic kinds of the spec; the source's `logging.debug` calls
emit only `MissingLevel` (`LEVEL NOT FOUND`) and `UnrecognizedPartOfSpeech`
(`PART OF SPEECH NOT MATCHED`). -/
inductive Diag : Type where
  | MissingLevel : List Char → Diag
  | UnrecognizedPartOfSpeech : List Char → Diag
  | EmptySubentryList : List Char → Diag
  | NoWordBoundaryFound : List Char → Diag
deriving DecidableEq, Repr

/-- The structured result of parsing one raw Subentry. -/
structure ParsedSubentry : Type where
  definition : List Char
  partsOfSpeech : List (List Char)
  level : List Char
deriving DecidableEq, Repr

/-- The structured result of parsing one line. -/
structure Entry : Type where
  wordForms : List Char
  subentries : List ParsedSubentry
deriving DecidableEq, Repr

/-- Python `level_pattern.search(s)`: the leftmost occurrence of one of the
six level codes, together with its position. -/
def levelFindPos : List Char → Option (List Char × Nat)
  | [] => none
  | c :: rest =>
    match LEVEL_VALUES.find? (fun l => l.isPrefixOf (c :: rest)) with
    | some l => some (l, 0)
    | none => (levelFindPos rest).map (fun li => (li.1, li.2 + 1))

/-- The `definition` variable of `parse_subentry`: when the subentry starts
with `(`, the characters after it up to the first `(` or `)`
(`subentry.split('(')[1].split(')')[0]`), otherwise the empty string. -/
def defnOf (s : List Char) : List Char :=
  match s with
  | '(' :: rest => rest.takeWhile (fun c => c != '(' && c != ')')
  | _ => []

/-- The working text of `parse_subentry` after
`subentry.replace(f'({definition})', '').strip()`. -/
def afterDefn (s : List Char) : List Char :=
  pyStrip (replaceAll s ('(' :: (defnOf s ++ [')'])))

/-- Python `re.split(r',|\/', s)` of the part-of-speech stage. -/
def splitCommaSlash (s : List Char) : List (List Char) :=
  splitOnP (fun c => c == ',' || c == '/') s

/-- The part-of-speech loop of `parse_subentry`: strip each candidate, skip
empty ones, keep exact vocabulary matches, report the rest. -/
def posLoop : List (List Char) → List (List Char) × List Diag
  | [] => ([], [])
  | c :: rest =>
    if pyStrip c = [] then posLoop rest
    else if pyStrip c ∈ PART_OF_SPEECH_VALUES then
      ((posLoop rest).1.cons (pyStrip c), (posLoop rest).2)
    else ((posLoop rest).1, (posLoop rest).2.cons (Diag.UnrecognizedPartOfSpeech (pyStrip c)))

/-- The source's `parse_subentry`.  When no level code is found the source
logs `LEVEL NOT FOUND` and then evaluates `f'{level}'` with `level` never
assigned, raising `UnboundLocalError`; this is modelled as `Except.error`
carrying the diagnostics logged before the exception. -/
def parse_subentry (s : List Char) : Except (List Diag) (ParsedSubentry × List Diag) :=
  match levelFindPos (afterDefn s) with
  | none => Except.error [Diag.MissingLevel (afterDefn s)]
  | some li =>
    let t := pyStrip (replaceAll (afterDefn s) li.1)
    let pd := posLoop (splitCommaSlash t)
    Except.ok ({ definition := defnOf s, partsOfSpeech := pd.1, level := li.1 }, pd.2)

/-- Parse each raw Subentry in order, as the final loop of
`parse_word_entry` does; a raised exception aborts the loop
(third component `true`). -/
def runSubentries : List (List Char) → List ParsedSubentry × List Diag × Bool
  | [] => ([], [], false)
  | s :: rest =>
    match parse_subentry s with
    | Except.error ds => ([], ds, true)
    | Except.ok pd =>
      ((runSubentries rest).1.cons pd.1,
       pd.2 ++ (runSubentries rest).2.1,
       (runSubentries rest).2.2)

/-- The source's `parse_word_entry`: scanner, splitter, then the subentry
loop; the third component records whether an exception escaped. -/
def parse_word_entry (line : List Char) : Entry × List Diag × Bool :=
  ({ wordForms := wordOf line,
     subentries := (runSubentries (splitSubentries (remainderOf line))).1 },
   (runSubentries (splitSubentries (remainderOf line))).2.1,
   (runSubentries (splitSubentries (remainderOf line))).2.2)

/-- Whether a diagnostic list contains an `EmptySubentryList` diagnostic. -/
def hasEmptySubentryListDiag (ds : List Diag) : Bool :=
  ds.any (fun d => match d with
    | Diag.EmptySubentryList _ => true
    | _ => false)

/-! ### Bridging lemmas between the executable string functions and
propositional list relations -/

theorem isPrefixOf_eq (p s : List Char) : p.isPrefixOf s = true ↔ p <+: s :=
  List.isPrefixOf_iff_prefix

theorem containsSub_iff (p s : List Char) : containsSub p s = true ↔ p <:+: s := by
  induction s with
  | nil => simp [containsSub, isPrefixOf_eq, List.infix_nil]
  | cons c t ih =>
    rw [containsSub, Bool.or_eq_true, ih, isPrefixOf_eq, List.infix_cons_iff]

theorem stripRight_pref (s : List Char) : stripRight s <+: s := by
  have h : s.reverse.dropWhile pyIsSpace <:+ s.reverse := List.dropWhile_suffix _
  have h2 := List.reverse_prefix.mpr h
  simpa [stripRight] using h2

theorem pyStrip_within (s : List Char) : pyStrip s <:+: s := by
  have h1 : stripLeft (stripRight s) <:+ stripRight s := List.dropWhile_suffix _
  exact h1.isInfix.trans (stripRight_pref s).isInfix

theorem containsSub_of_within (p t s : List Char) (hts : t <:+: s)
    (h : containsSub p t = true) : containsSub p s = true := by
  rw [containsSub_iff] at h ⊢
  exact h.trans hts

theorem anyLevelIn_of_within (t s : List Char) (hts : t <:+: s)
    (h : anyLevelIn t = true) : anyLevelIn s = true := by
  rw [anyLevelIn, List.any_eq_true] at h ⊢
  obtain ⟨l, hl, hc⟩ := h
  exact ⟨l, hl, containsSub_of_within l t s hts hc⟩

theorem anyLevelIn_strip (c : List Char) (h : anyLevelIn c = false) :
    anyLevelIn (pyStrip c) = false := by
  cases hc : anyLevelIn (pyStrip c) with
  | false => rfl
  | true =>
    rw [anyLevelIn_of_within _ _ (pyStrip_within c) hc] at h
    exact absurd h (by simp)

theorem anyLevelIn_of_mem (c : List Char) (h : c ∈ LEVEL_VALUES) : anyLevelIn c = true := by
  rw [anyLevelIn, List.any_eq_true]
  exact ⟨c, h, (containsSub_iff c c).mpr (List.infix_refl c)⟩

theorem anyLevelIn_of_endsWith (c : List Char) (h : endsWithLevel c = true) :
    anyLevelIn c = true := by
  rw [endsWithLevel, List.any_eq_true] at h
  obtain ⟨l, hl, hs⟩ := h
  rw [List.isSuffixOf_iff_suffix] at hs
  rw [anyLevelIn, List.any_eq_true]
  exact ⟨l, hl, (containsSub_iff l c).mpr hs.isInfix⟩

theorem anyLevelIn_tail (a : Char) (t : List Char) (h : anyLevelIn (a :: t) = false) :
    anyLevelIn t = false := by
  cases ht : anyLevelIn t with
  | false => rfl
  | true =>
    rw [anyLevelIn, List.any_eq_true] at ht
    obtain ⟨l, hl, hc⟩ := ht
    have : anyLevelIn (a :: t) = true := by
      rw [anyLevelIn, List.any_eq_true]
      refine ⟨l, hl, ?_⟩
      rw [containsSub, Bool.or_eq_true]
      exact Or.inr hc
    rw [this] at h
    exact absurd h (by simp)

/-! ### Lemmas about the Subentry Splitter loop -/

theorem splitLoop_append_nolevel (c : List Char) (h : anyLevelIn c = false) :
    ∀ (cs : List (List Char)) (buf : List Char) (out : List (List Char)),
    splitLoop buf out (cs ++ [c]) = splitLoop buf out cs
  | [], buf, out => by
    rw [List.nil_append]
    have h' := anyLevelIn_strip c h
    have h1 : pyStrip c ∉ LEVEL_VALUES := fun hm => by
      rw [anyLevelIn_of_mem _ hm] at h'
      exact absurd h' (by simp)
    have h2 : ¬ endsWithLevel (pyStrip c) = true := fun he => by
      rw [anyLevelIn_of_endsWith _ he] at h'
      exact absurd h' (by simp)
    simp only [splitLoop]
    split_ifs <;> rfl
  | c0 :: rest, buf, out => by
    rw [List.cons_append]
    simp only [splitLoop]
    split_ifs with he hl hs
    · exact splitLoop_append_nolevel c h rest buf out
    · exact splitLoop_append_nolevel c h rest buf _
    · exact splitLoop_append_nolevel c h rest buf _
    · exact splitLoop_append_nolevel c h rest _ out

theorem splitLoop_single_nolevel (r : List Char) (h : anyLevelIn r = false)
    (buf : List Char) (out : List (List Char)) : splitLoop buf out [r] = out := by
  have := splitLoop_append_nolevel r h [] buf out
  rw [List.nil_append] at this
  rw [this, splitLoop]

theorem reSplit_no_level : ∀ (r : List Char), anyLevelIn r = false → reSplitGo r = [r]
  | [], _ => rfl
  | [_], _ => rfl
  | [_, _], _ => rfl
  | a :: b :: c :: rest, h => by
    have hcond : ¬(c = ',' ∧ [a, b] ∈ LEVEL_VALUES) := by
      rintro ⟨_, hm⟩
      have hin : anyLevelIn (a :: b :: c :: rest) = true := by
        rw [anyLevelIn, List.any_eq_true]
        refine ⟨[a, b], hm, ?_⟩
        rw [containsSub, Bool.or_eq_true]
        exact Or.inl (by simp [List.isPrefixOf])
      rw [hin] at h
      exact absurd h (by simp)
    have htail : anyLevelIn (b :: c :: rest) = false := anyLevelIn_tail a _ h
    rw [reSplitGo, if_neg hcond, reSplit_no_level (b :: c :: rest) htail]
    rfl

theorem splitLoop_ends : ∀ (cs : List (List Char)) (buf : List Char)
    (out : List (List Char)), (∀ s ∈ out, endsWithLevel s = true) →
    ∀ s ∈ splitLoop buf out cs, endsWithLevel s = true
  | [], _, out => by
    intro hout s hs
    rw [splitLoop] at hs
    exact hout s hs
  | c :: rest, buf, out => by
    intro hout
    simp only [splitLoop]
    split_ifs with he hl hs
    · exact splitLoop_ends rest buf out hout
    · refine splitLoop_ends rest buf _ ?_
      intro s hs
      rcases List.mem_append.mp hs with hs | hs
      · exact hout s hs
      · rw [List.mem_singleton] at hs
        subst hs
        rw [endsWithLevel, List.any_eq_true]
        refine ⟨pyStrip c, hl, ?_⟩
        rw [List.isSuffixOf_iff_suffix, List.append_cons]
        exact List.suffix_append _ _
    · refine splitLoop_ends rest buf _ ?_
      intro s hs'
      rcases List.mem_append.mp hs' with hs' | hs'
      · exact hout s hs'
      · rw [List.mem_singleton] at hs'
        subst hs'
        exact hs
    · exact splitLoop_ends rest _ out hout

/-! ### Lemmas about `str.replace` versus first-occurrence removal -/

theorem countZero_replace (p : List Char) :
    ∀ (n : Nat) (t : List Char), countOccGo p n t = 0 → replaceAllGo p n t = t := by
  intro n
  induction n with
  | zero => intro t _; cases t <;> rfl
  | succ n ih =>
    intro t ht
    cases t with
    | nil => rfl
    | cons c rest =>
      by_cases hp : p.isPrefixOf (c :: rest) = true
      · simp only [countOccGo, hp, if_true] at ht
        omega
      · simp only [countOccGo, hp, if_false, Bool.false_eq_true] at ht
        simp only [replaceAllGo, hp, if_false, Bool.false_eq_true]
        rw [ih rest ht]

theorem replace_eq_removeFirst (p : List Char) :
    ∀ (n : Nat) (s : List Char), s.length ≤ n → countOccGo p n s ≤ 1 →
    replaceAllGo p n s = removeFirstOcc s p := by
  intro n
  induction n with
  | zero =>
    intro s hl _
    have hs : s = [] := List.length_eq_zero.mp (Nat.le_zero.mp hl)
    subst hs
    rfl
  | succ n ih =>
    intro s hl hc
    cases s with
    | nil => rfl
    | cons c rest =>
      by_cases hp : p.isPrefixOf (c :: rest) = true
      · simp only [countOccGo, hp, if_true] at hc
        have hz : countOccGo p n ((c :: rest).drop p.length) = 0 := by omega
        simp only [replaceAllGo, removeFirstOcc, hp, if_true]
        exact countZero_replace p n _ hz
      · simp only [countOccGo, hp, if_false, Bool.false_eq_true] at hc
        simp only [replaceAllGo, removeFirstOcc, hp, if_false, Bool.false_eq_true]
        have hl' : rest.length ≤ n := by
          simp only [List.length_cons] at hl
          omega
        rw [ih rest hl' hc]

theorem removeFirst_nil_pat (s : List Char) : removeFirstOcc s [] = s := by
  cases s with
  | nil => rfl
  | cons c rest => simp [removeFirstOcc, List.isPrefixOf]

/-! ### Lemmas about the space-splitting scanner -/

theorem splitOnP_head (f : Char → Bool) (l : List Char) :
    ∃ rest, splitOnP f l = l.takeWhile (fun c => !(f c)) :: rest := by
  induction l with
  | nil => exact ⟨[], rfl⟩
  | cons c r ih =>
    by_cases hc : f c = true
    · exact ⟨splitOnP f r, by simp [splitOnP, hc, List.takeWhile_cons]⟩
    · obtain ⟨rest, hr⟩ := ih
      refine ⟨rest, ?_⟩
      simp only [splitOnP, hc, if_false, Bool.false_eq_true, hr, consHead,
        List.takeWhile_cons]
      simp [hc]

/-! ### Lemmas about the vocabulary constants -/

theorem levels_strip (l : List Char) (h : l ∈ LEVEL_VALUES) : pyStrip l = l := by
  fin_cases h <;> rfl

theorem levels_ne_nil (l : List Char) (h : l ∈ LEVEL_VALUES) : l ≠ [] := by
  fin_cases h <;> decide

/-! ### Lemmas about the part-of-speech loop -/

theorem posLoop_mem : ∀ (cs : List (List Char)), ∀ x ∈ (posLoop cs).1,
    x ∈ PART_OF_SPEECH_VALUES
  | [] => by intro x hx; simp [posLoop] at hx
  | c :: rest => by
    intro x hx
    simp only [posLoop] at hx
    split_ifs at hx with h1 h2
    · exact posLoop_mem rest x hx
    · simp only [] at hx
      rcases List.mem_cons.mp hx with hx | hx
      · subst hx; exact h2
      · exact posLoop_mem rest x hx
    · simp only [] at hx
      exact posLoop_mem rest x hx

theorem posLoop_sublist : ∀ (cs : List (List Char)),
    List.Sublist ((posLoop cs).1) (cs.map pyStrip)
  | [] => by simp [posLoop]
  | c :: rest => by
    simp only [posLoop, List.map_cons]
    split_ifs with h1 h2
    · exact (posLoop_sublist rest).cons _
    · exact (posLoop_sublist rest).cons₂ _
    · exact (posLoop_sublist rest).cons _

/-! ### The level search returns the leftmost occurrence -/

theorem levelFindPos_leftmost : ∀ (s l : List Char) (i : Nat),
    levelFindPos s = some (l, i) →
    l ∈ LEVEL_VALUES ∧ l.isPrefixOf (s.drop i) = true ∧
    ∀ j, j < i → ∀ l', l' ∈ LEVEL_VALUES → l'.isPrefixOf (s.drop j) = false
  | [], l, i => by
    intro h
    simp [levelFindPos] at h
  | c :: rest, l, i => by
    intro h
    rw [levelFindPos] at h
    cases hf : LEVEL_VALUES.find? (fun x => x.isPrefixOf (c :: rest)) with
    | some l0 =>
      rw [hf] at h
      simp only [Option.some.injEq, Prod.mk.injEq] at h
      obtain ⟨hl0, hi0⟩ := h
      subst hl0
      subst hi0
      refine ⟨List.mem_of_find?_eq_some hf, ?_, ?_⟩
      · simpa using List.find?_some hf
      · intro j hj
        omega
    | none =>
      rw [hf] at h
      cases hr : levelFindPos rest with
      | none =>
        rw [hr] at h
        simp at h
      | some li =>
        obtain ⟨l0, i0⟩ := li
        rw [hr] at h
        simp only [Option.map_some', Option.some.injEq, Prod.mk.injEq] at h
        obtain ⟨rfl, rfl⟩ := h
        have hrec := levelFindPos_leftmost rest l0 i0 hr
        refine ⟨hrec.1, ?_, ?_⟩
        · simpa [List.drop_succ_cons] using hrec.2.1
        · intro j hj l' hl'
          cases j with
          | zero =>
            have hnone := List.find?_eq_none.mp hf l' hl'
            simp only [Bool.not_eq_true] at hnone
            simpa using hnone
          | succ j' =>
            have := hrec.2.2 j' (by omega) l' hl'
            simpa [List.drop_succ_cons] using this

/-! ### Claims -/

/-- Claim C1: the spec says that for a raw Subentry with no level code the
Subentry Parser does not raise, emits `MissingLevel`, and produces no
`ParsedSubentry`.  The source logs `LEVEL NOT FOUND` (the `MissingLevel`
diagnostic) but then unconditionally evaluates
`subentry.replace(f'{level}', '')` with the local variable `level` never
assigned, raising `UnboundLocalError`: evaluated at the level-free subentry
`junk`, the embedded parser ends in the error state carrying the
`MissingLevel` diagnostic logged before the exception. -/
theorem C1_missing_level_raises :
    parse_subentry (strL "junk") = Except.error [Diag.MissingLevel (strL "junk")] := by
  rfl

/-- Claim C2: on the line `bank (money) n. B1, (land) n. A2` the full
pipeline produces WordForms `bank` and exactly the two ParsedSubentries
`{money, [n.], B1}` and `{land, [n.], A2}` in this order (with no
diagnostics and no exception). -/
theorem C2_bank_pipeline :
    parse_word_entry (strL "bank (money) n. B1, (land) n. A2") =
      ({ wordForms := strL "bank",
         subentries :=
           [{ definition := strL "money", partsOfSpeech := [strL "n."], level := strL "B1" },
            { definition := strL "land", partsOfSpeech := [strL "n."], level := strL "A2" }] },
       [], false) := by
  rfl

/-- Claim C3, counterexample: the claim says every raw Subentry emitted by
the Subentry Splitter contains exactly one occurrence of a level code, but
for the Remainder `B1 B2` the splitter emits the single raw Subentry
`B1 B2`, which contains two level-code occurrences. -/
theorem C3_two_level_occurrences :
    splitSubentries (strL "B1 B2") = [strL "B1 B2"] ∧
    countLevelOcc (strL "B1 B2") = 2 := by
  exact ⟨rfl, rfl⟩

/-- Claim C3 (amended): every raw Subentry string emitted by the Subentry
Splitter ends in a level code (and hence contains at least one level-code
occurrence), but it may contain more than one. -/
theorem C3_amended_ends_with_level (r s : List Char) (h : s ∈ splitSubentries r) :
    endsWithLevel s = true ∧ anyLevelIn s = true := by
  have he : endsWithLevel s = true := by
    refine splitLoop_ends (reSplitGo r) [] [] ?_ s h
    intro x hx
    exact absurd hx (List.not_mem_nil x)
  exact ⟨he, anyLevelIn_of_endsWith s he⟩

/-- Witness for C3 (amended) at the Remainder `B1`, whose single emitted
raw Subentry is `' ' ++ B1`. -/
theorem C3_amended_witness :
    endsWithLevel (strL " B1") = true ∧ anyLevelIn (strL " B1") = true :=
  C3_amended_ends_with_level (strL "B1") (strL " B1") (by decide)

/-- Claim C4, counterexample: the claim says the buffer is reset after a
Subentry is closed, so that for the Remainder `(d) B1, B2` the second
emitted Subentry contains no text from before the `B1,` split.  The source
never resets `subentry_part`: the second emitted Subentry is `(d) B2`,
which still contains the pre-split text `(d)`. -/
theorem C4_buffer_not_reset :
    splitSubentries (strL "(d) B1, B2") = [strL "(d) B1", strL "(d) B2"] ∧
    containsSub (strL "(d)") (strL "(d) B2") = true := by
  exact ⟨rfl, rfl⟩

/-- Claim C4 (amended): on an exactly-level segment the loop closes the
Subentry as `buffer + ' ' + level` but does not reset the buffer, so two
consecutive bare level codes both reuse the same stale buffer. -/
theorem C4_amended_stale_buffer (buf l1 l2 : List Char) (out : List (List Char))
    (h1 : l1 ∈ LEVEL_VALUES) (h2 : l2 ∈ LEVEL_VALUES) :
    splitLoop buf out [l1, l2] = out ++ [buf ++ ' ' :: l1, buf ++ ' ' :: l2] := by
  have hs1 : pyStrip l1 = l1 := levels_strip l1 h1
  have hs2 : pyStrip l2 = l2 := levels_strip l2 h2
  have hn1 : l1 ≠ [] := levels_ne_nil l1 h1
  have hn2 : l2 ≠ [] := levels_ne_nil l2 h2
  simp only [splitLoop, hs1, hs2, hn1, hn2, h1, h2, if_true, if_false, ite_true, ite_false]
  simp [List.append_assoc]

/-- Witness for C4 (amended) at the buffer `(d)` and the levels `B1`, `B2`
(the state reached on the Remainder `(d) B1, B2`). -/
theorem C4_amended_witness :
    splitLoop (strL "(d)") [] [strL "B1", strL "B2"] =
      [strL "(d)" ++ ' ' :: strL "B1", strL "(d)" ++ ' ' :: strL "B2"] := by
  have h := C4_amended_stale_buffer (strL "(d)") (strL "B1") (strL "B2") []
    (by decide) (by decide)
  simpa using h

/-- Claim C5, counterexample: the claim says only the first occurrence of
the WordForms text is removed from the line and a later occurrence is left
in the Remainder.  On the line `go (go) v. A1` the scanner's WordForms is
`go`; the source's `line.replace(word, '')` also removes the later
occurrence inside `(go)`, giving the Remainder `() v. A1`, whereas
removing only the first occurrence would give `(go) v. A1`. -/
theorem C5_all_occurrences_removed :
    wordOf (strL "go (go) v. A1") = strL "go" ∧
    remainderOf (strL "go (go) v. A1") = strL "() v. A1" ∧
    pyStrip (removeFirstOcc (strL "go (go) v. A1") (strL "go")) = strL "(go) v. A1" ∧
    strL "() v. A1" ≠ strL "(go) v. A1" := by
  refine ⟨rfl, rfl, rfl, by decide⟩

/-- Claim C5 (amended): the Remainder equals the line with every
left-to-right non-overlapping occurrence of the WordForms text removed and
surrounding whitespace trimmed; when the WordForms text occurs at most once
this coincides with removing only the first occurrence. -/
theorem C5_amended_single_occurrence (line : List Char)
    (h : countOcc line (wordOf line) ≤ 1) :
    remainderOf line = pyStrip (removeFirstOcc line (wordOf line)) := by
  rw [remainderOf, replaceAll]
  by_cases hw : wordOf line = []
  · rw [if_pos hw, hw, removeFirst_nil_pat]
  · rw [if_neg hw]
    congr 1
    rw [countOcc, if_neg hw] at h
    exact replace_eq_removeFirst (wordOf line) line.length line (le_refl _) h

/-- Witness for C5 (amended) at the line `bank n. B1`, whose WordForms
`bank` occurs exactly once. -/
theorem C5_amended_witness :
    countOcc (strL "bank n. B1") (wordOf (strL "bank n. B1")) ≤ 1 ∧
    remainderOf (strL "bank n. B1") =
      pyStrip (removeFirstOcc (strL "bank n. B1") (wordOf (strL "bank n. B1"))) :=
  ⟨by decide, C5_amended_single_occurrence (strL "bank n. B1") (by decide)⟩

/-- Claim C6, counterexample: the claim says only the first occurrence of
the recorded level code is removed from the working text and a later
occurrence of the same level-code substring remains.  For the raw Subentry
`n. B1 B1` the recorded level is the first `B1` (position 3), but the
source's `subentry.replace(level, '')` removes both occurrences: the
working text becomes `n.`, which contains no `B1`, whereas removing only
the first occurrence would leave a text still containing `B1`. -/
theorem C6_later_occurrence_gone :
    levelFindPos (afterDefn (strL "n. B1 B1")) = some (strL "B1", 3) ∧
    pyStrip (replaceAll (afterDefn (strL "n. B1 B1")) (strL "B1")) = strL "n." ∧
    containsSub (strL "B1") (strL "n.") = false ∧
    containsSub (strL "B1")
      (pyStrip (removeFirstOcc (afterDefn (strL "n. B1 B1")) (strL "B1"))) = true := by
  refine ⟨rfl, rfl, rfl, rfl⟩

/-- Claim C6 (amended): the recorded level is the first (leftmost)
occurrence of a level code in the working text — no level code starts at
any earlier position — and the removal step deletes every left-to-right
non-overlapping occurrence of that level-code string, not only the first. -/
theorem C6_amended_leftmost_level (s l : List Char) (i : Nat)
    (h : levelFindPos s = some (l, i)) :
    l ∈ LEVEL_VALUES ∧ l.isPrefixOf (s.drop i) = true ∧
    ∀ j, j < i → ∀ l', l' ∈ LEVEL_VALUES → l'.isPrefixOf (s.drop j) = false :=
  levelFindPos_leftmost s l i h

/-- Witness for C6 (amended) at the working text `n. B1 B1`. -/
theorem C6_amended_witness :
    (strL "B1") ∈ LEVEL_VALUES ∧
    (strL "B1").isPrefixOf ((strL "n. B1 B1").drop 3) = true := by
  have h := C6_amended_leftmost_level (strL "n. B1 B1") (strL "B1") 3 (by decide)
  exact ⟨h.1, h.2.1⟩

/-- Claim C7, counterexample: the claim says a level-free Remainder makes
the splitter output empty and raises an `EmptySubentryList` diagnostic.
On the line `hello (stuff) n. xx` (Remainder `(stuff) n. xx`, no level
code) the splitter output is indeed empty and the Entry is produced
without an exception, but the source has no `EmptySubentryList` logging
call at all: the diagnostic list is empty. -/
theorem C7_no_diagnostic_emitted :
    splitSubentries (remainderOf (strL "hello (stuff) n. xx")) = [] ∧
    parse_word_entry (strL "hello (stuff) n. xx") =
      ({ wordForms := strL "hello", subentries := [] }, [], false) ∧
    hasEmptySubentryListDiag (parse_word_entry (strL "hello (stuff) n. xx")).2.1 = false := by
  refine ⟨rfl, rfl, rfl⟩

/-- Claim C7 (amended): for every line whose Remainder contains no level
code anywhere, the Subentry Splitter outputs an empty sequence, no
diagnostic at all is raised, and the line still yields a non-throwing
Entry with an empty subentry list. -/
theorem C7_amended_no_level_empty (line : List Char)
    (h : anyLevelIn (remainderOf line) = false) :
    parse_word_entry line = ({ wordForms := wordOf line, subentries := [] }, [], false) := by
  have hs : splitSubentries (remainderOf line) = [] := by
    rw [splitSubentries, reSplit_no_level _ h]
    exact splitLoop_single_nolevel _ h [] []
  rw [parse_word_entry, hs]
  rfl

/-- Witness for C7 (amended) at the line `sole (alone) adj. zz`. -/
theorem C7_amended_witness :
    anyLevelIn (remainderOf (strL "sole (alone) adj. zz")) = false ∧
    parse_word_entry (strL "sole (alone) adj. zz") =
      ({ wordForms := strL "sole", subentries := [] }, [], false) :=
  ⟨by decide, C7_amended_no_level_empty (strL "sole (alone) adj. zz") (by decide)⟩

/-- Claim C8, counterexample: the claim quantifies over every non-empty
input line, but on the non-empty line `' (a) B1'` (leading space) the
first `' '`-split segment is empty, the scanner stops at `(a)`, and
WordForms is the empty string — so the first whitespace-delimited token
`(a)` is not included and WordForms is empty. -/
theorem C8_leading_space_empty_word :
    strL " (a) B1" ≠ [] ∧ wordOf (strL " (a) B1") = [] := by
  exact ⟨by decide, rfl⟩

/-- Claim C8 (amended): for every non-empty input line that does not begin
with a space, the first space-delimited token is unconditionally included
in WordForms — WordForms starts with it, even when that token (or the
second token alone) would match a part-of-speech marker — and hence
WordForms is non-empty. -/
theorem C8_amended_first_token (c : Char) (r : List Char) (h : c ≠ ' ') :
    wordOf (c :: r) ≠ [] ∧
    ((c :: r).takeWhile (fun x => !(x == ' '))) <+: wordOf (c :: r) := by
  obtain ⟨rest, hsplit⟩ := splitOnP_head (fun x => x == ' ') (c :: r)
  have hw : wordPartsOf (c :: r) =
      ((c :: r).takeWhile (fun x => !(x == ' '))) :: scanTail rest := by
    rw [wordPartsOf, hsplit]
  have ht : (c :: r).takeWhile (fun x => !(x == ' ')) =
      c :: r.takeWhile (fun x => !(x == ' ')) := by
    simp [List.takeWhile_cons, h]
  rw [wordOf, hw, ht]
  cases hs : scanTail rest with
  | nil =>
    constructor
    · simp [joinSpace]
    · simp only [joinSpace]
      exact List.prefix_rfl
  | cons y ys =>
    constructor
    · simp [joinSpace]
    · simp only [joinSpace]
      exact List.prefix_append _ _

/-- Witness for C8 (amended) at the line `number (x) n. A1`, whose first
token `number` is itself a part-of-speech marker. -/
theorem C8_amended_witness :
    wordOf ('n' :: strL "umber (x) n. A1") ≠ [] ∧
    (('n' :: strL "umber (x) n. A1").takeWhile (fun x => !(x == ' '))) <+:
      wordOf ('n' :: strL "umber (x) n. A1") :=
  C8_amended_first_token 'n' (strL "umber (x) n. A1") (by decide)

/-- Claim C9, counterexample: the claim speaks of a fixed 21-entry
part-of-speech vocabulary, but the source's `PART_OF_SPEECH_VALUES` has
exactly 20 entries. -/
theorem C9_vocabulary_has_20_entries :
    PART_OF_SPEECH_VALUES.length = 20 ∧ ¬ PART_OF_SPEECH_VALUES.length = 21 := by
  exact ⟨rfl, by decide⟩

/-- Claim C9 (amended): for every raw Subentry the parser accepts, every
element of the resulting partsOfSpeech list exactly matches one entry of
the fixed 20-entry part-of-speech vocabulary, and the matched tags form a
sublist of the stripped candidates, so their relative order is the order
in which the candidates occur in the subentry text. -/
theorem C9_amended_closed_vocabulary (s : List Char) (p : ParsedSubentry) (d : List Diag)
    (h : parse_subentry s = Except.ok (p, d)) :
    (∀ x ∈ p.partsOfSpeech, x ∈ PART_OF_SPEECH_VALUES) ∧
    List.Sublist p.partsOfSpeech
      ((splitCommaSlash (pyStrip (replaceAll (afterDefn s) p.level))).map pyStrip) := by
  rw [parse_subentry] at h
  cases hf : levelFindPos (afterDefn s) with
  | none =>
    rw [hf] at h
    exact absurd h (by simp)
  | some li =>
    rw [hf] at h
    simp only [Except.ok.injEq, Prod.mk.injEq] at h
    obtain ⟨hp, hd⟩ := h
    subst hp
    constructor
    · intro x hx
      exact posLoop_mem _ x hx
    · exact posLoop_sublist _

/-- Witness for C9 (amended) at the raw Subentry `(money) n. B1`. -/
theorem C9_amended_witness :
    (∀ x ∈ [strL "n."], x ∈ PART_OF_SPEECH_VALUES) ∧
    List.Sublist [strL "n."]
      ((splitCommaSlash (pyStrip (replaceAll (afterDefn (strL "(money) n. B1"))
        (strL "B1")))).map pyStrip) :=
  C9_amended_closed_vocabulary (strL "(money) n. B1")
    { definition := strL "money", partsOfSpeech := [strL "n."], level := strL "B1" } [] rfl

/-- Claim C10: when the Remainder contains a level code followed by a comma
and the final `re.split` segment (the text after the last level-code-comma
split) contains no level code, that trailing segment only replaces the
buffer and is never emitted: the splitter's output is exactly the output on
the preceding segments, so no raw Subentry and no diagnostic arises from
the trailing text. -/
theorem C10_trailing_text_discarded (r lastC : List Char) (init : List (List Char))
    (hsplit : reSplitGo r = init ++ [lastC])
    (_hlc : ∃ l ∈ LEVEL_VALUES, containsSub (l ++ [',']) r = true)
    (hnl : anyLevelIn lastC = false) :
    splitSubentries r = splitLoop [] [] init := by
  rw [splitSubentries, hsplit]
  exact splitLoop_append_nolevel lastC hnl init [] []

/-- Witness for C10 at the Remainder `w (d) B1, junk`: the trailing text
`junk` is discarded and the only emitted raw Subentry is `w (d) B1`. -/
theorem C10_trailing_witness :
    splitSubentries (strL "w (d) B1, junk") = splitLoop [] [] [strL "w (d) ", strL "B1"] ∧
    splitLoop [] [] [strL "w (d) ", strL "B1"] = [strL "w (d) B1"] :=
  ⟨C10_trailing_text_discarded (strL "w (d) B1, junk") (strL " junk")
      [strL "w (d) ", strL "B1"] (by decide) ⟨strL "B1", by decide, by decide⟩ (by decide),
   by decide⟩
